import Mathlib

/-!
Verification development for the summary pipeline of `src/load.rs`
(rustc-perf website loader).

The Rust code is embedded shallowly:

* `Date` (from the external `date` module, absent from the sources) is
  modelled as an integer day number; `Duration::weeks n` is `7 * n` days.
* `f64` timing values are modelled as rationals: every delta the claims
  speak about is produced by a single subtraction, which is exact.
* Rust `HashMap` / `BTreeMap` values are modelled as association lists;
  `HashMap` insertion is last-write-wins replacement (`upsert`), and the
  `BTreeMap` keyed by `Commit` (whose `Ord` compares dates only) is a
  date-sorted association list (`StoreInsert`).
* Panicking operations (`assert_eq!`, `expect`, indexing) are modelled in
  the `Option` monad: `none` is a fatal failure.
-/

namespace RustcPerf

/-- Modelled from the spec: the external `date::Date` type, a calendar
date with no time-of-day, totally ordered; we use an integer day number. -/
abbrev Date := Int

/-- Modelled from the spec: `Date::start_of_week` is a deterministic,
total, monotone floor function onto week starts; we floor to the
enclosing multiple of 7 days. -/
def startOfWeek (d : Date) : Date := d - d % 7

/-- `const WEEKS_IN_SUMMARY: usize = 12;` -/
def WEEKS_IN_SUMMARY : Nat := 12

/-- `struct Pass { name, time, mem }` (time `f64` modelled as `Rat`). -/
structure Pass where
  name : String
  time : Rat
  mem : Nat
deriving DecidableEq

/-- `struct Run { name, passes }` -/
structure Run where
  name : String
  passes : List Pass
deriving DecidableEq

/-- `struct Patch { patch, name, runs }` -/
structure Patch where
  patch : String
  name : String
  runs : List Run
deriving DecidableEq

/-- `struct Commit { sha, date }` -/
structure Commit where
  sha : String
  date : Date
deriving DecidableEq

/-- `struct CommitData { commit, benchmarks: HashMap<String, Vec<Patch>> }`;
the hash map is an association list. -/
structure CommitData where
  commit : Commit
  benchmarks : List (String × List Patch)
deriving DecidableEq

/-- `impl Ord for Commit`: `self.date.cmp(&other.date)` — the sha is
ignored.  The `cmp` of `Date` is the standard total order on dates. -/
def Commit.cmp (c1 c2 : Commit) : Ordering :=
  if c1.date < c2.date then Ordering.lt
  else if c1.date = c2.date then Ordering.eq
  else Ordering.gt

/-- `Patch::full_name`: `self.name.clone() + &self.patch`. -/
def Patch.full_name (p : Patch) : String := p.name ++ p.patch

/-- `Patch::run`: `assert_eq!(self.runs.len(), 1); &self.runs[0]` — the
assertion failure is `none`. -/
def Patch.run (p : Patch) : Option Run :=
  match p.runs with
  | [r] => some r
  | _ => none

/-- `Run::get_pass`: `self.passes.iter().find(|p| p.name == pass)`. -/
def Run.get_pass (r : Run) (pass : String) : Option Pass :=
  r.passes.find? (fun p => p.name = pass)

/-- Association-list lookup, first match wins (a `HashMap` has unique
keys, so this agrees with `HashMap` indexing on well-formed maps). -/
def alookup {α : Type} : List (String × α) → String → Option α
  | [], _ => none
  | (k, v) :: t, s => if k = s then some v else alookup t s

/-- Association-list insertion with replacement: `HashMap::insert`. -/
def upsert {α : Type} : List (String × α) → String → α → List (String × α)
  | [], k, v => [(k, v)]
  | (k0, v0) :: t, k, v =>
    if k0 = k then (k, v) :: t else (k0, v0) :: upsert t k v

/-- The `by_crate` structure: run name → (pass name → delta). -/
abbrev ByCrate := List (String × List (String × Rat))

/-- `by_crate.entry(run_name).or_insert_with(HashMap::new).insert(pass_name, d)`. -/
def insert2 (m : ByCrate) (rn pn : String) (d : Rat) : ByCrate :=
  upsert m rn (upsert ((alookup m rn).getD []) pn d)

/-- Nested lookup into a `ByCrate` map. -/
def lookup2 (m : ByCrate) (rn pn : String) : Option Rat :=
  (alookup m rn).bind (fun inner => alookup inner pn)

/-- `struct Comparison { a, b, by_crate }` -/
structure Comparison where
  a : Commit
  b : Commit
  by_crate : ByCrate
deriving DecidableEq

/-- `struct Summary { total, comparisons }` -/
structure Summary where
  total : Comparison
  comparisons : List Comparison
deriving DecidableEq

/-- The delta `b_t - a_t` recorded for pass `a_pass`: `b_t` is the time
found by `b_run.get_pass(name)` or `0.0` when absent. -/
def deltaOf (b_run : Run) (a_pass : Pass) : Rat :=
  ((b_run.get_pass a_pass.name).map Pass.time).getD 0 - a_pass.time

/-- The inner pass loop of `Summary::compare_points`: for every pass of
`a_run`, record its delta under `[run name][pass name]`. -/
def comparePasses (a_run b_run : Run) (m : ByCrate) : ByCrate :=
  a_run.passes.foldl
    (fun m a_pass => insert2 m a_run.name a_pass.name (deltaOf b_run a_pass))
    m

/-- One `(a_patch, b_patch)` iteration of `Summary::compare_points`:
`a_patch.run()` and `b_patch.run()` (fatal if not exactly one run each),
then `assert_eq!(a_run.name, b_run.name)`. -/
def comparePatches (m : ByCrate) (pr : Patch × Patch) : Option ByCrate :=
  match pr.1.run, pr.2.run with
  | some a_run, some b_run =>
    if a_run.name = b_run.name then some (comparePasses a_run b_run m) else none
  | _, _ => none

/-- One benchmark-group iteration of `Summary::compare_points`: a group
missing from `b` is skipped; otherwise the patch lists must have equal
length (fatal assertion) and are paired positionally. -/
def compareGroup (b : CommitData) (m : ByCrate) (gp : String × List Patch) :
    Option ByCrate :=
  match alookup b.benchmarks gp.1 with
  | none => some m
  | some b_patches =>
    if gp.2.length = b_patches.length then
      (gp.2.zip b_patches).foldlM comparePatches m
    else none

/-- `Summary::compare_points(a, b)`. -/
def compare_points (a b : CommitData) : Option Comparison :=
  (a.benchmarks.foldlM (compareGroup b) []).map
    (fun m => { a := a.commit, b := b.commit, by_crate := m })

/-- Modelled from the spec: `util::data_range(data, start, end)` returns
the records of the store whose date lies in the half-open interval
`[start, end)`, in store order (ascending by date for a sorted store),
consumable from both ends. -/
def data_range (data : List (Commit × CommitData)) (start stop : Date) :
    List (Commit × CommitData) :=
  data.filter (fun p => decide (start ≤ p.1.date ∧ p.1.date < stop))

/-- The two endpoints `week.clone().next()` / `week.next_back()` of
weekly window `i` in `Summary::new`; `none` when the window is empty. -/
def weekPair (data : List (Commit × CommitData)) (last_date : Date) (i : Nat) :
    Option ((Commit × CommitData) × (Commit × CommitData)) :=
  match (data_range data (startOfWeek last_date - 7 * (i : Int))
           (startOfWeek last_date - 7 * (i : Int) + 7)).head?,
        (data_range data (startOfWeek last_date - 7 * (i : Int))
           (startOfWeek last_date - 7 * (i : Int) + 7)).getLast? with
  | some f, some l => some (f, l)
  | _, _ => none

/-- The endpoints of the `totals` range of `Summary::new`:
`[start_of_week(last_date) - 13 weeks, last_date + 1 week)`; the two
`expect`s are fatal when the range is empty. -/
def totalPair (data : List (Commit × CommitData)) (last_date : Date) :
    Option ((Commit × CommitData) × (Commit × CommitData)) :=
  match (data_range data (startOfWeek last_date - 7 * 13) (last_date + 7)).head?,
        (data_range data (startOfWeek last_date - 7 * 13) (last_date + 7)).getLast? with
  | some f, some l => some (f, l)
  | _, _ => none

/-- The `for i in 0..WEEKS_IN_SUMMARY` loop of `Summary::new`: an empty
window is skipped with a warning, a two-ended window is compared and the
result pushed; a comparison panic aborts everything. -/
def weeksGo (data : List (Commit × CommitData)) (last_date : Date) :
    List Nat → List Comparison → Option (List Comparison)
  | [], acc => some acc
  | i :: is, acc =>
    match weekPair data last_date i with
    | none => weeksGo data last_date is acc
    | some fl =>
      match compare_points fl.1.2 fl.2.2 with
      | none => none
      | some c => weeksGo data last_date is (acc ++ [c])

/-- `Summary::new(data, last_date)`. -/
def Summary.new (data : List (Commit × CommitData)) (last_date : Date) :
    Option Summary :=
  match weeksGo data last_date (List.range WEEKS_IN_SUMMARY) [] with
  | none => none
  | some weeks =>
    match totalPair data last_date with
    | none => none
    | some fl =>
      match compare_points fl.1.2 fl.2.2 with
      | none => none
      | some total => some { total := total, comparisons := weeks }

/-- The weekly comparison window `i` actually yields, fused:
`none` when the window is empty or its comparison would panic. -/
def weeklyOpt (data : List (Commit × CommitData)) (last_date : Date) (i : Nat) :
    Option Comparison :=
  (weekPair data last_date i).bind (fun fl => compare_points fl.1.2 fl.2.2)

/-- `struct InputData { summary, crate_list, phase_list, last_date, data }`
(the `BTreeSet`s are sorted duplicate-free string lists). -/
structure InputData where
  summary : Summary
  crate_list : List String
  phase_list : List String
  last_date : Date
  data : List (Commit × CommitData)
deriving DecidableEq

/-- `BTreeSet<String>::insert`: sorted insertion without duplicates. -/
def insertSet : List String → String → List String
  | [], s => [s]
  | x :: t, s =>
    if s < x then s :: x :: t
    else if s = x then x :: t
    else x :: insertSet t s

/-- The `last_date` update of the scan loop in `InputData::new`:
replace when the new date is strictly larger. -/
def updLast (ld : Option Date) (d : Date) : Option Date :=
  match ld with
  | none => some d
  | some d0 => if d0 < d then some d else some d0

/-- The per-patch body of the scan loop in `InputData::new`:
`crate_list.insert(patch.full_name())` then
`for pass in &patch.run().passes { phase_list.insert(pass.name) }` —
`patch.run()` is fatal when the patch has other than one run. -/
def patchStep (st : List String × List String) (p : Patch) :
    Option (List String × List String) :=
  match p.run with
  | none => none
  | some r =>
    some (insertSet st.1 p.full_name,
          r.passes.foldl (fun pl ps => insertSet pl ps.name) st.2)

/-- The scan-loop iteration of `InputData::new` for one record. -/
def recordStep (st : Option Date × List String × List String)
    (p : Commit × CommitData) :
    Option (Option Date × List String × List String) :=
  match (p.2.benchmarks.flatMap Prod.snd).foldlM patchStep (st.2.1, st.2.2) with
  | none => none
  | some lists => some (updLast st.1 p.2.commit.date, lists.1, lists.2)

/-- `InputData::new(data)`: scan all records (fatal on a malformed
patch), `last_date.expect("No dates found")` (fatal on an empty
collection), then build the `Summary` (whose own fatal paths also
propagate). -/
def InputData.new (data : List (Commit × CommitData)) : Option InputData :=
  match data.foldlM recordStep (none, [], []) with
  | none => none
  | some st =>
    match st.1 with
    | none => none
    | some ld =>
      match Summary.new data ld with
      | none => none
      | some s =>
        some { summary := s, crate_list := st.2.1, phase_list := st.2.2,
               last_date := ld, data := data }

/-- `BTreeMap<Commit, CommitData>::insert` where the `Ord` of `Commit`
compares dates only: walk the date-sorted list; on an `Ordering::Equal`
key the value is replaced and the stored key retained (Rust `BTreeMap`
keeps the old key). -/
def StoreInsert : List (Commit × CommitData) → Commit → CommitData →
    List (Commit × CommitData)
  | [], k, v => [(k, v)]
  | (k0, v0) :: t, k, v =>
    if k.date < k0.date then (k, v) :: (k0, v0) :: t
    else if k.date = k0.date then (k0, v) :: t
    else (k0, v0) :: StoreInsert t k v

/-- The ingestion loop of `InputData::from_fs`: successive
`data.insert(contents.commit, contents)` into an initially empty map. -/
def buildStore (l : List (Commit × CommitData)) : List (Commit × CommitData) :=
  l.foldl (fun m p => StoreInsert m p.1 p.2) []

/-- A store sorted strictly ascending by key date (the `BTreeMap`
invariant under the date-only `Ord`). -/
def storeSorted (m : List (Commit × CommitData)) : Prop :=
  m.Pairwise (fun p q => p.1.date < q.1.date)

/-! Concrete fixtures used by witnesses and counterexamples. -/

/-- A commit dated day 0. -/
def exC0 : Commit := { sha := "c0", date := 0 }

/-- A commit dated day 3. -/
def exCB : Commit := { sha := "c1", date := 3 }

/-- A run with a single pass `x` of time 1. -/
def exRunOne : Run := { name := "r", passes := [{ name := "x", time := 1, mem := 0 }] }

/-- A patch holding exactly `exRunOne`. -/
def exPatchOne : Patch := { patch := "", name := "p", runs := [exRunOne] }

/-- A one-group, one-patch record dated day 0. -/
def exDataOne : CommitData := { commit := exC0, benchmarks := [("g", [exPatchOne])] }

/-- A one-record store. -/
def exStoreOne : List (Commit × CommitData) := [(exC0, exDataOne)]

/-- A run with two passes both named `x`, of times 5 and 7. -/
def exRunDup : Run :=
  { name := "r",
    passes := [{ name := "x", time := 5, mem := 0 }, { name := "x", time := 7, mem := 0 }] }

/-- A patch holding exactly `exRunDup`. -/
def exPatchDup : Patch := { patch := "", name := "p", runs := [exRunDup] }

/-- A record whose single run has two passes named `x`. -/
def exDataDup : CommitData := { commit := exC0, benchmarks := [("g", [exPatchDup])] }

/-- A run named `r` with no pass named `x`. -/
def exRunY : Run := { name := "r", passes := [{ name := "y", time := 1, mem := 0 }] }

/-- A patch holding exactly `exRunY`. -/
def exPatchY : Patch := { patch := "", name := "p", runs := [exRunY] }

/-- A record (dated day 3) whose run lacks pass `x`. -/
def exDataY : CommitData := { commit := exCB, benchmarks := [("g", [exPatchY])] }

/-- A record with two patches in group `g`. -/
def exDataTwo : CommitData := { commit := exCB, benchmarks := [("g", [exPatchY, exPatchY])] }

/-- A patch with zero runs: `Patch::run` panics on it. -/
def exPatchNoRun : Patch := { patch := "", name := "p", runs := [] }

/-- A record containing a zero-run patch. -/
def exDataNoRun : CommitData := { commit := exC0, benchmarks := [("g", [exPatchNoRun])] }

/-- A one-record store whose record holds a zero-run patch. -/
def exStoreBad : List (Commit × CommitData) := [(exC0, exDataNoRun)]

/-- A run named `r` with the single pass `x` of time 5. -/
def exRunX5 : Run := { name := "r", passes := [{ name := "x", time := 5, mem := 0 }] }

/-- A patch holding exactly `exRunX5`. -/
def exPatchX5 : Patch := { patch := "", name := "p", runs := [exRunX5] }

/-- A record whose run holds the single pass `x` of time 5. -/
def exDataX5 : CommitData := { commit := exC0, benchmarks := [("g", [exPatchX5])] }

/-! General helper lemmas. -/

/-- An `Option`-valued left fold dies as soon as one element is fatal for
every accumulator. -/
theorem foldlM_none_of_mem {α β : Type} (f : β → α → Option β) (x : α)
    (hx : ∀ acc, f acc x = none) :
    ∀ (l : List α) (acc : β), x ∈ l → l.foldlM f acc = none := by
  intro l
  induction l with
  | nil => intro acc h; cases h
  | cons h t ih =>
    intro acc hm
    rw [List.foldlM_cons]
    rcases List.mem_cons.mp hm with rfl | hmem
    · rw [hx acc]; rfl
    · cases hf : f acc h with
      | none => rfl
      | some acc2 => simpa [hf] using ih acc2 hmem

/-- A pure left fold preserves any predicate its steps preserve. -/
theorem foldl_preserve {α β : Type} (P : β → Prop) (f : β → α → β)
    (l : List α) (hf : ∀ m x, x ∈ l → P m → P (f m x)) :
    ∀ m : β, P m → P (l.foldl f m) := by
  induction l with
  | nil => intro m hm; simpa using hm
  | cons h t ih =>
    intro m hm
    rw [List.foldl_cons]
    exact ih (fun m2 x hx => hf m2 x (List.mem_cons_of_mem h hx)) _
      (hf m h (List.mem_cons_self h t) hm)

/-! ### C6 — `Commit` ordering is by date alone -/

/-- C6: for every pair of commits, `Commit.cmp` is exactly the
comparison of the two dates (`lt`/`eq`/`gt` match `<`/`=`/`>` on
dates); in particular two commits with equal dates but different shas
compare as equal. -/
theorem commit_cmp_by_date_only :
    ∀ c1 c2 : Commit,
      (Commit.cmp c1 c2 = Ordering.lt ↔ c1.date < c2.date) ∧
      (Commit.cmp c1 c2 = Ordering.eq ↔ c1.date = c2.date) ∧
      (Commit.cmp c1 c2 = Ordering.gt ↔ c2.date < c1.date) ∧
      (c1.date = c2.date → c1.sha ≠ c2.sha → Commit.cmp c1 c2 = Ordering.eq) := by
  intro c1 c2
  refine ⟨?_, ?_, ?_, ?_⟩
  · unfold Commit.cmp; split_ifs with h1 h2 <;> simp
    · exact h1
    · exact le_of_not_lt h1
    · exact le_of_not_lt h1
  · unfold Commit.cmp; split_ifs with h1 h2 <;> simp
    · exact ne_of_lt h1
    · exact h2
    · exact h2
  · unfold Commit.cmp; split_ifs with h1 h2 <;> simp
    · exact le_of_lt h1
    · exact le_of_eq h2
    · exact lt_of_le_of_ne (le_of_not_lt h1) (fun e => h2 e.symm)
  · intro h hs
    unfold Commit.cmp
    rw [if_neg (by rw [h]; exact lt_irrefl _), if_pos h]

/-- Witness for C6 at two concrete same-day commits with distinct shas. -/
theorem commit_cmp_by_date_only_witness :
    Commit.cmp { sha := "aaa", date := 17 } { sha := "bbb", date := 17 } = Ordering.eq :=
  (commit_cmp_by_date_only { sha := "aaa", date := 17 } { sha := "bbb", date := 17 }).2.2.2
    rfl (by decide)

/-! ### C8 — `Patch::run` demands exactly one run -/

/-- C8: accessing the single run of a patch is fatal when the patch
holds zero or several runs, and returns the unique run otherwise. -/
theorem patch_run_exactly_one :
    (∀ p : Patch, p.runs.length ≠ 1 → p.run = none) ∧
    (∀ (p : Patch) (r : Run), p.runs = [r] → p.run = some r) := by
  constructor
  · intro p h
    unfold Patch.run
    rcases hr : p.runs with _ | ⟨r, _ | ⟨r2, t⟩⟩ <;> simp_all
  · intro p r h
    simp [Patch.run, h]

/-- Witness for C8: a zero-run patch is fatal, a two-run patch is fatal,
a one-run patch yields its run. -/
theorem patch_run_exactly_one_witness :
    Patch.run exPatchNoRun = none ∧
    Patch.run { patch := "", name := "p", runs := [exRunY, exRunY] } = none ∧
    Patch.run exPatchX5 = some exRunX5 :=
  ⟨patch_run_exactly_one.1 exPatchNoRun (by decide),
   patch_run_exactly_one.1 { patch := "", name := "p", runs := [exRunY, exRunY] } (by decide),
   patch_run_exactly_one.2 exPatchX5 exRunX5 rfl⟩

/-! ### C5 — mismatched patch-sequence lengths are fatal -/

/-- C5: if `a` and `b` share a benchmark-group name but the two patch
sequences for that group differ in length, `compare_points` fails
fatally; the group is neither skipped nor truncated. -/
theorem compare_points_mismatched_lengths_fatal :
    ∀ (a b : CommitData) (gp : String × List Patch) (bps : List Patch),
      gp ∈ a.benchmarks →
      alookup b.benchmarks gp.1 = some bps →
      gp.2.length ≠ bps.length →
      compare_points a b = none := by
  intro a b gp bps hmem hb hlen
  unfold compare_points
  rw [foldlM_none_of_mem (compareGroup b) gp ?_ a.benchmarks [] hmem]
  · rfl
  · intro acc
    unfold compareGroup
    rw [hb]
    simp [hlen]

/-- Witness for C5: a one-patch group against a two-patch group of the
same name is fatal. -/
theorem compare_points_mismatched_lengths_fatal_witness :
    compare_points exDataX5 exDataTwo = none :=
  compare_points_mismatched_lengths_fatal exDataX5 exDataTwo ("g", [exPatchX5])
    [exPatchY, exPatchY] (by decide) (by decide) (by decide)

/-! ### C9 — the store holds at most one record per date -/

/-- Every key date appearing after a `StoreInsert` is either the
inserted date or one already present. -/
theorem storeInsert_key_dates (k : Commit) (v : CommitData) :
    ∀ (t : List (Commit × CommitData)) (q : Commit × CommitData),
      q ∈ StoreInsert t k v →
      q.1.date = k.date ∨ ∃ p ∈ t, q.1.date = p.1.date := by
  intro t
  induction t with
  | nil =>
    intro q hq
    simp only [StoreInsert, List.mem_singleton] at hq
    subst hq; left; rfl
  | cons h0 t0 ih =>
    intro q hq
    unfold StoreInsert at hq
    split_ifs at hq with h1 h2
    · rcases List.mem_cons.mp hq with rfl | hq2
      · left; rfl
      · right; exact ⟨q, hq2, rfl⟩
    · rcases List.mem_cons.mp hq with rfl | hq2
      · right; exact ⟨h0, List.mem_cons_self _ _, rfl⟩
      · right; exact ⟨q, List.mem_cons_of_mem _ hq2, rfl⟩
    · rcases List.mem_cons.mp hq with rfl | hq2
      · right; exact ⟨h0, List.mem_cons_self _ _, rfl⟩
      · rcases ih q hq2 with hk | ⟨p, hp, he⟩
        · left; exact hk
        · right; exact ⟨p, List.mem_cons_of_mem _ hp, he⟩

/-- `StoreInsert` preserves strict date sortedness. -/
theorem storeInsert_sorted (k : Commit) (v : CommitData) :
    ∀ t : List (Commit × CommitData), storeSorted t → storeSorted (StoreInsert t k v) := by
  intro t
  induction t with
  | nil =>
    intro _
    unfold StoreInsert storeSorted
    exact List.pairwise_singleton _ _
  | cons h0 t0 ih =>
    intro hs
    rcases List.pairwise_cons.mp hs with ⟨hall, ht0⟩
    unfold StoreInsert
    split_ifs with h1 h2
    · exact List.pairwise_cons.mpr
        ⟨fun q hq => by
          rcases List.mem_cons.mp hq with rfl | hq2
          · exact h1
          · exact lt_trans h1 (hall q hq2), hs⟩
    · exact List.pairwise_cons.mpr
        ⟨fun q hq => h2 ▸ hall q hq, ht0⟩
    · refine List.pairwise_cons.mpr ⟨fun q hq => ?_, ih ht0⟩
      rcases storeInsert_key_dates k v t0 q hq with he | ⟨p, hp, he⟩
      · rw [he]; exact lt_of_le_of_ne (le_of_not_lt h1) (fun e => h2 e.symm)
      · rw [he]; exact hall p hp

/-- Stores built by repeated insertion are strictly date-sorted. -/
theorem buildStore_sorted (l : List (Commit × CommitData)) :
    storeSorted (buildStore l) := by
  unfold buildStore
  refine foldl_preserve storeSorted _ l ?_ [] (List.Pairwise.nil)
  intro m x _ hm
  exact storeInsert_sorted x.1 x.2 m hm

/-- Inserting at an already-present date into a sorted store keeps the
length: the old record is replaced, not joined. -/
theorem storeInsert_length_of_mem (k : Commit) (v : CommitData) :
    ∀ t : List (Commit × CommitData), storeSorted t →
      (∃ p ∈ t, p.1.date = k.date) →
      (StoreInsert t k v).length = t.length := by
  intro t
  induction t with
  | nil => intro _ h; rcases h with ⟨p, hp, _⟩; cases hp
  | cons h0 t0 ih =>
    intro hs ⟨p, hp, he⟩
    rcases List.pairwise_cons.mp hs with ⟨hall, ht0⟩
    unfold StoreInsert
    split_ifs with h1 h2
    · exfalso
      rcases List.mem_cons.mp hp with rfl | hp2
      · exact lt_irrefl _ (he ▸ h1)
      · exact lt_irrefl _ (lt_trans h1 (he ▸ hall p hp2))
    · simp
    · have hp2 : p ∈ t0 := by
        rcases List.mem_cons.mp hp with rfl | hp2
        · exact absurd he.symm h2
        · exact hp2
      simp [ih ht0 ⟨p, hp2, he⟩]

/-- After inserting at date `k.date`, some record at that date holds the
new value. -/
theorem storeInsert_stores (k : Commit) (v : CommitData) :
    ∀ t : List (Commit × CommitData),
      ∃ q ∈ StoreInsert t k v, q.1.date = k.date ∧ q.2 = v := by
  intro t
  induction t with
  | nil => exact ⟨(k, v), by simp [StoreInsert]⟩
  | cons h0 t0 ih =>
    unfold StoreInsert
    split_ifs with h1 h2
    · exact ⟨(k, v), List.mem_cons_self _ _, rfl, rfl⟩
    · exact ⟨(h0.1, v), List.mem_cons_self _ _, h2.symm, rfl⟩
    · rcases ih with ⟨q, hq, he, hv⟩
      exact ⟨q, List.mem_cons_of_mem _ hq, he, hv⟩

/-- C9: a built store never holds two records of the same date, and
inserting a record whose commit date is already present replaces the
stored record (same length, new value) rather than coexisting with it. -/
theorem store_at_most_one_record_per_date :
    (∀ l : List (Commit × CommitData),
      (buildStore l).Pairwise (fun p q => p.1.date ≠ q.1.date)) ∧
    (∀ (l : List (Commit × CommitData)) (k : Commit) (v : CommitData),
      (∃ p ∈ buildStore l, p.1.date = k.date) →
      (StoreInsert (buildStore l) k v).length = (buildStore l).length ∧
      ∃ q ∈ StoreInsert (buildStore l) k v, q.1.date = k.date ∧ q.2 = v) := by
  constructor
  · intro l
    exact (buildStore_sorted l).imp (fun h => ne_of_lt h)
  · intro l k v hex
    exact ⟨storeInsert_length_of_mem k v (buildStore l) (buildStore_sorted l) hex,
      storeInsert_stores k v (buildStore l)⟩

/-- Witness for C9: re-inserting day 0 under a different sha replaces
the lone record of the one-record store. -/
theorem store_at_most_one_record_per_date_witness :
    (StoreInsert (buildStore exStoreOne) { sha := "other", date := 0 } exDataDup).length =
      (buildStore exStoreOne).length ∧
    ∃ q ∈ StoreInsert (buildStore exStoreOne) { sha := "other", date := 0 } exDataDup,
      q.1.date = ({ sha := "other", date := 0 } : Commit).date ∧ q.2 = exDataDup :=
  store_at_most_one_record_per_date.2 exStoreOne { sha := "other", date := 0 } exDataDup
    ⟨(exC0, exDataOne), by decide⟩

/-! ### The `last_date` scan of `InputData::new` computes the maximum -/

/-- The date component of one scan step. -/
theorem recordStep_fst (st : Option Date × List String × List String)
    (p : Commit × CommitData) (st2 : Option Date × List String × List String)
    (h : recordStep st p = some st2) : st2.1 = updLast st.1 p.2.commit.date := by
  unfold recordStep at h
  split at h
  · cases h
  · cases h; rfl

/-- The date component of the whole scan fold. -/
theorem foldlM_recordStep_fst :
    ∀ (l : List (Commit × CommitData)) (st st2 : Option Date × List String × List String),
      l.foldlM recordStep st = some st2 →
      st2.1 = l.foldl (fun a p => updLast a p.2.commit.date) st.1 := by
  intro l
  induction l with
  | nil => intro st st2 h; cases h; rfl
  | cons h0 t ih =>
    intro st st2 h
    rw [List.foldlM_cons] at h
    cases hr : recordStep st h0 with
    | none => rw [hr] at h; cases h
    | some st1 =>
      rw [hr] at h
      rw [List.foldl_cons, ← recordStep_fst st h0 st1 hr]
      exact ih st1 st2 h

/-- `updLast` is `max` on an already-seen date. -/
theorem updLast_some (d0 d : Date) : updLast (some d0) d = some (max d0 d) := by
  show (if d0 < d then some d else some d0) = some (max d0 d)
  rcases lt_trichotomy d0 d with h | h | h
  · rw [if_pos h, max_eq_right (le_of_lt h)]
  · rw [if_neg (h ▸ lt_irrefl d0), h, max_self]
  · rw [if_neg (not_lt_of_lt h), max_eq_left (le_of_lt h)]

/-- Folding `updLast` from a seen date is folding `max`. -/
theorem foldl_updLast_some :
    ∀ (l : List Date) (d : Date), l.foldl updLast (some d) = some (l.foldl max d) := by
  intro l
  induction l with
  | nil => intro d; rfl
  | cons h0 t ih => intro d; rw [List.foldl_cons, List.foldl_cons, updLast_some]; exact ih _

/-- The `last_date` scan computes exactly the maximum of the dates. -/
theorem foldl_updLast_eq_max :
    ∀ l : List Date, l.foldl updLast none = l.max? := by
  intro l
  cases l with
  | nil => rfl
  | cons d t =>
    rw [List.foldl_cons]
    show t.foldl updLast (some d) = (d :: t).max?
    rw [foldl_updLast_some]
    rfl

/-! ### C3 — construction fails on empty input; `last_date` is the maximum -/

/-- C3 (amended): building from an empty collection always fails, and
whenever building succeeds the recorded `last_date` is the maximum
commit date across the input records.  (Construction can also fail on
nonempty collections, e.g. on a zero-run patch — see the
counterexample theorem.) -/
theorem inputdata_empty_fails_last_date_max :
    (InputData.new [] = none) ∧
    (∀ (data : List (Commit × CommitData)) (st : InputData),
      InputData.new data = some st →
      (data.map (fun p => p.2.commit.date)).max? = some st.last_date) := by
  constructor
  · rfl
  · intro data st h
    unfold InputData.new at h
    split at h
    · cases h
    · rename_i st0 hf
      split at h
      · cases h
      · rename_i ld hld
        split at h
        · cases h
        · rename_i s hs
          cases h
          have hfst := foldlM_recordStep_fst data (none, [], []) st0 hf
          rw [← foldl_updLast_eq_max, List.foldl_map]
          show data.foldl (fun a p => updLast a p.2.commit.date) none = some ld
          rw [← hfst]
          exact hld

/-- Counterexample for C3 as stated: a nonempty collection whose single
record holds a zero-run patch makes construction fail. -/
theorem inputdata_nonempty_can_fail :
    exStoreBad.length = 1 ∧ InputData.new exStoreBad = none := by
  constructor
  · rfl
  · decide

/-- A successfully built `InputData` over the one-record store. -/
def exInputOne : InputData := (InputData.new exStoreOne).get (by decide)

/-- Witness for C3 on the one-record store: building succeeds and
`last_date` is the (unique, hence maximal) input date. -/
theorem inputdata_empty_fails_last_date_max_witness :
    (exStoreOne.map (fun p => p.2.commit.date)).max? = some exInputOne.last_date :=
  inputdata_empty_fails_last_date_max.2 exStoreOne exInputOne (Option.some_get _).symm

/-! ### C10 — the total-range `expect`s never fire on a real store -/

/-- C10: for any store whose keys carry the same dates as their records
(the invariant of every store built by the ingestion loop), if the
`last_date` scan yields `ld` — which it does exactly when the store is
nonempty — then the record of maximal date lies inside
`[start_of_week(ld) - 13 weeks, ld + 1 week)`, so both `expect`s of the
`totals` block succeed. -/
theorem total_pair_never_fatal :
    ∀ (data : List (Commit × CommitData)) (ld : Date),
      (∀ p ∈ data, p.1.date = p.2.commit.date) →
      data.foldl (fun a p => updLast a p.2.commit.date) none = some ld →
      (totalPair data ld).isSome = true := by
  intro data ld hkey hld
  have hmax : (data.map (fun p => p.2.commit.date)).max? = some ld := by
    rw [← foldl_updLast_eq_max, List.foldl_map]
    exact hld
  have hmem : ld ∈ data.map (fun p => p.2.commit.date) :=
    List.max?_mem max_choice hmax
  rcases List.mem_map.mp hmem with ⟨p, hp, hpd⟩
  have hpk : p.1.date = ld := by rw [hkey p hp, hpd]
  have hrange : p ∈ data_range data (startOfWeek ld - 7 * 13) (ld + 7) := by
    unfold data_range
    refine List.mem_filter.mpr ⟨hp, ?_⟩
    rw [decide_eq_true_iff]
    have h0 : (0 : Int) ≤ ld % 7 := Int.emod_nonneg ld (by norm_num)
    constructor
    · show startOfWeek ld - 7 * 13 ≤ p.1.date
      rw [hpk]
      unfold startOfWeek
      linarith
    · show p.1.date < ld + 7
      rw [hpk]
      linarith
  have hne : data_range data (startOfWeek ld - 7 * 13) (ld + 7) ≠ [] :=
    List.ne_nil_of_mem hrange
  unfold totalPair
  cases hw : data_range data (startOfWeek ld - 7 * 13) (ld + 7) with
  | nil => exact absurd hw hne
  | cons a t =>
    have hl : ((a :: t).getLast?).isSome = true := by
      rw [List.getLast?_isSome]
      simp
    rcases Option.isSome_iff_exists.mp hl with ⟨x, hx⟩
    rw [List.head?_cons, hx]
    rfl

/-- Witness for C10 on the one-record store. -/
theorem total_pair_never_fatal_witness :
    (totalPair exStoreOne 0).isSome = true :=
  total_pair_never_fatal exStoreOne 0 (by decide) (by decide)

/-! ### The weekly loop as a `filterMap` -/

/-- The weekly loop accumulates exactly the fused per-window results, in
loop order. -/
theorem weeksGo_eq_filterMap (data : List (Commit × CommitData)) (ld : Date) :
    ∀ (l : List Nat) (acc out : List Comparison),
      weeksGo data ld l acc = some out →
      out = acc ++ l.filterMap (weeklyOpt data ld) := by
  intro l
  induction l with
  | nil => intro acc out h; cases h; simp
  | cons i t ih =>
    intro acc out h
    unfold weeksGo at h
    cases hwp : weekPair data ld i with
    | none =>
      rw [hwp] at h
      rw [ih acc out h, List.filterMap_cons]
      have hz : weeklyOpt data ld i = none := by unfold weeklyOpt; rw [hwp]; rfl
      rw [hz]
    | some fl =>
      rw [hwp] at h
      have h2 : (match compare_points fl.1.2 fl.2.2 with
          | none => none
          | some c => weeksGo data ld t (acc ++ [c])) = some out := h
      cases hcp : compare_points fl.1.2 fl.2.2 with
      | none => rw [hcp] at h2; cases h2
      | some c =>
        rw [hcp] at h2
        rw [ih (acc ++ [c]) out h2, List.filterMap_cons]
        have hs : weeklyOpt data ld i = some c := by
          unfold weeklyOpt; rw [hwp]; exact hcp
        rw [hs, List.append_assoc]
        rfl

/-- A produced weekly pair certifies its window is nonempty. -/
theorem weekPair_ne_nil {data : List (Commit × CommitData)} {ld : Date} {i : Nat}
    {fl : (Commit × CommitData) × (Commit × CommitData)}
    (h : weekPair data ld i = some fl) :
    data_range data (startOfWeek ld - 7 * (i : Int))
      (startOfWeek ld - 7 * (i : Int) + 7) ≠ [] := by
  intro hnil
  unfold weekPair at h
  rw [hnil] at h
  exact Option.noConfusion h

/-! ### C7 — at most 12 weekly comparisons, one total, in window order -/

/-- C7: a built `Summary` carries at most `WEEKS_IN_SUMMARY` (= 12)
weekly comparisons; the weekly sequence is exactly the windows in
increasing window index `i` (most-recent first) that produced a
comparison; the single `total` comparison is computed separately from
the wide total range and stored outside the sequence. -/
theorem summary_at_most_12_ordered :
    ∀ (data : List (Commit × CommitData)) (ld : Date) (s : Summary),
      Summary.new data ld = some s →
      s.comparisons.length ≤ WEEKS_IN_SUMMARY ∧
      s.comparisons = (List.range WEEKS_IN_SUMMARY).filterMap (weeklyOpt data ld) ∧
      ∃ fl, totalPair data ld = some fl ∧
        compare_points fl.1.2 fl.2.2 = some s.total := by
  intro data ld s h
  unfold Summary.new at h
  split at h
  · cases h
  · rename_i weeks hweeks
    split at h
    · cases h
    · rename_i fl hfl
      split at h
      · cases h
      · rename_i total hcp
        cases h
        have hfm := weeksGo_eq_filterMap data ld (List.range WEEKS_IN_SUMMARY) [] weeks hweeks
        rw [List.nil_append] at hfm
        refine ⟨?_, hfm, fl, hfl, hcp⟩
        rw [hfm]
        calc ((List.range WEEKS_IN_SUMMARY).filterMap (weeklyOpt data ld)).length
            ≤ (List.range WEEKS_IN_SUMMARY).length := List.length_filterMap_le _ _
          _ = WEEKS_IN_SUMMARY := List.length_range _

/-- The summary built over the one-record store. -/
def exSummaryOne : Summary := (Summary.new exStoreOne 0).get (by decide)

/-- Witness for C7 over the one-record store. -/
theorem summary_at_most_12_ordered_witness :
    exSummaryOne.comparisons.length ≤ WEEKS_IN_SUMMARY ∧
    exSummaryOne.comparisons =
      (List.range WEEKS_IN_SUMMARY).filterMap (weeklyOpt exStoreOne 0) ∧
    ∃ fl, totalPair exStoreOne 0 = some fl ∧
      compare_points fl.1.2 fl.2.2 = some exSummaryOne.total :=
  summary_at_most_12_ordered exStoreOne 0 exSummaryOne (Option.some_get _).symm

/-! ### C1 — where weekly comparisons come from -/

/-- C1 (amended): every weekly comparison of a built `Summary` comes
from some window `i < 12` whose selected range is nonempty — at least
ONE record suffices, since the loop reads the first and the last element
of the same range (they coincide for a singleton window) — comparing
that first element (as `a`) with that last element (as `b`). -/
theorem weekly_comparison_from_nonempty_window :
    ∀ (data : List (Commit × CommitData)) (ld : Date) (s : Summary),
      Summary.new data ld = some s →
      ∀ c ∈ s.comparisons,
        ∃ i, i < WEEKS_IN_SUMMARY ∧
          data_range data (startOfWeek ld - 7 * (i : Int))
            (startOfWeek ld - 7 * (i : Int) + 7) ≠ [] ∧
          ∃ fl, weekPair data ld i = some fl ∧
            compare_points fl.1.2 fl.2.2 = some c := by
  intro data ld s h c hc
  unfold Summary.new at h
  split at h
  · cases h
  · rename_i weeks hweeks
    split at h
    · cases h
    · rename_i fl0 hfl0
      split at h
      · cases h
      · rename_i total hcp0
        cases h
        have hfm := weeksGo_eq_filterMap data ld (List.range WEEKS_IN_SUMMARY) [] weeks hweeks
        rw [List.nil_append] at hfm
        have hc2 : c ∈ (List.range WEEKS_IN_SUMMARY).filterMap (weeklyOpt data ld) := by
          rw [← hfm]; exact hc
        rcases List.mem_filterMap.mp hc2 with ⟨i, hi, hw⟩
        refine ⟨i, List.mem_range.mp hi, ?_, ?_⟩
        · unfold weeklyOpt at hw
          cases hwp : weekPair data ld i with
          | none => rw [hwp] at hw; cases hw
          | some fl => exact weekPair_ne_nil hwp
        · unfold weeklyOpt at hw
          cases hwp : weekPair data ld i with
          | none => rw [hwp] at hw; cases hw
          | some fl =>
            rw [hwp] at hw
            exact ⟨fl, rfl, hw⟩

/-- The sole weekly comparison of the one-record summary. -/
def exCmpOne : Comparison := exSummaryOne.comparisons.head (by decide)

/-- Witness for C1 (amended) at the one-record store and its single
weekly comparison. -/
theorem weekly_comparison_from_nonempty_window_witness :
    ∃ i, i < WEEKS_IN_SUMMARY ∧
      data_range exStoreOne (startOfWeek 0 - 7 * (i : Int))
        (startOfWeek 0 - 7 * (i : Int) + 7) ≠ [] ∧
      ∃ fl, weekPair exStoreOne 0 i = some fl ∧
        compare_points fl.1.2 fl.2.2 = some exCmpOne :=
  weekly_comparison_from_nonempty_window exStoreOne 0 exSummaryOne
    (Option.some_get _).symm exCmpOne (List.head_mem _)

/-- Counterexample for C1 as stated: over the one-record store, window 0
holds exactly one record (and every window holds at most one), yet the
built summary contains one weekly comparison — a single-record window is
NOT omitted. -/
theorem single_record_window_yields_comparison :
    (data_range exStoreOne (startOfWeek 0 - 7 * ((0 : Nat) : Int))
      (startOfWeek 0 - 7 * ((0 : Nat) : Int) + 7)).length = 1 ∧
    ((List.range WEEKS_IN_SUMMARY).all
      (fun i => (data_range exStoreOne (startOfWeek 0 - 7 * (i : Int))
        (startOfWeek 0 - 7 * (i : Int) + 7)).length ≤ 1)) = true ∧
    (Summary.new exStoreOne 0).map (fun s => s.comparisons.length) = some 1 := by
  refine ⟨by decide, by decide, by decide⟩

/-! ### Association-map lemmas for the `by_crate` structure -/

/-- A successful lookup comes from a member with that key. -/
theorem alookup_mem {α : Type} :
    ∀ (m : List (String × α)) (k : String) (v : α),
      alookup m k = some v → (k, v) ∈ m := by
  intro m
  induction m with
  | nil => intro k v h; cases h
  | cons h0 t ih =>
    intro k v h
    unfold alookup at h
    split_ifs at h with he
    · cases h; rw [← he]; exact List.mem_cons_self _ _
    · exact List.mem_cons_of_mem _ (ih k v h)

/-- Members after an `upsert` are old members or the new pair. -/
theorem mem_upsert {α : Type} :
    ∀ (m : List (String × α)) (k : String) (v : α) (e : String × α),
      e ∈ upsert m k v → e ∈ m ∨ e = (k, v) := by
  intro m
  induction m with
  | nil =>
    intro k v e he
    unfold upsert at he
    right
    exact List.mem_singleton.mp he
  | cons h0 t ih =>
    intro k v e he
    unfold upsert at he
    split_ifs at he with hk
    · rcases List.mem_cons.mp he with rfl | he2
      · right; rfl
      · left; exact List.mem_cons_of_mem _ he2
    · rcases List.mem_cons.mp he with rfl | he2
      · left; exact List.mem_cons_self _ _
      · rcases ih k v e he2 with h | h
        · left; exact List.mem_cons_of_mem _ h
        · right; exact h

/-- Lookup of the freshly upserted key. -/
theorem alookup_upsert_self {α : Type} :
    ∀ (m : List (String × α)) (k : String) (v : α),
      alookup (upsert m k v) k = some v := by
  intro m
  induction m with
  | nil => intro k v; simp [upsert, alookup]
  | cons h0 t ih =>
    intro k v
    unfold upsert
    split_ifs with hk
    · unfold alookup; rw [if_pos rfl]
    · unfold alookup; rw [if_neg hk]; exact ih k v

/-- Lookup of a different key is unchanged by `upsert`. -/
theorem alookup_upsert_ne {α : Type} :
    ∀ (m : List (String × α)) (k k2 : String) (v : α), k2 ≠ k →
      alookup (upsert m k2 v) k = alookup m k := by
  intro m
  induction m with
  | nil => intro k k2 v hne; simp [upsert, alookup, hne]
  | cons h0 t ih =>
    intro k k2 v hne
    unfold upsert
    split_ifs with hk
    · unfold alookup
      rw [if_neg hne, if_neg (fun e => hne (hk.symm.trans e))]
    · unfold alookup
      split_ifs with h2
      · rfl
      · exact ih k k2 v hne

/-- Every delta of a map stays untouched or becomes the inserted one. -/
theorem lookup2_insert2_self (m : ByCrate) (rn pn : String) (d : Rat) :
    lookup2 (insert2 m rn pn d) rn pn = some d := by
  unfold lookup2 insert2
  rw [alookup_upsert_self]
  show alookup (upsert ((alookup m rn).getD []) pn d) pn = some d
  rw [alookup_upsert_self]

/-- A nested insertion at a different key leaves a lookup unchanged. -/
theorem lookup2_insert2_ne (m : ByCrate) (rn pn rn2 pn2 : String) (d : Rat)
    (h : rn2 ≠ rn ∨ pn2 ≠ pn) :
    lookup2 (insert2 m rn2 pn2 d) rn pn = lookup2 m rn pn := by
  by_cases hr : rn2 = rn
  · rcases h with h | hp
    · exact absurd hr h
    · subst hr
      unfold lookup2 insert2
      rw [alookup_upsert_self]
      cases hm : alookup m rn2 with
      | none =>
        show alookup (upsert ([] : List (String × Rat)) pn2 d) pn = none
        unfold upsert alookup
        rw [if_neg hp]
        rfl
      | some inner =>
        show alookup (upsert inner pn2 d) pn = alookup inner pn
        exact alookup_upsert_ne inner pn pn2 d hp
  · unfold lookup2 insert2
    rw [alookup_upsert_ne m rn rn2 _ hr]

/-- Nested insertion never erases an existing entry. -/
theorem lookup2_insert2_isSome (m : ByCrate) (rn pn rn2 pn2 : String) (d : Rat)
    (h : (lookup2 m rn pn).isSome = true) :
    (lookup2 (insert2 m rn2 pn2 d) rn pn).isSome = true := by
  by_cases hr : rn2 = rn ∧ pn2 = pn
  · rw [hr.1, hr.2, lookup2_insert2_self]; rfl
  · rw [lookup2_insert2_ne m rn pn rn2 pn2 d ?_]
    · exact h
    · by_cases h1 : rn2 = rn
      · right; intro h2; exact hr ⟨h1, h2⟩
      · left; exact h1

/-! ### C4 — self-comparison yields all-zero deltas -/

/-- All deltas recorded in a `ByCrate` map are zero. -/
def AllZero (m : ByCrate) : Prop := ∀ e ∈ m, ∀ e2 ∈ e.2, e2.2 = 0

/-- Inserting a zero delta preserves `AllZero`. -/
theorem allZero_insert2_zero (m : ByCrate) (rn pn : String)
    (hz : AllZero m) : AllZero (insert2 m rn pn 0) := by
  intro e he e2 he2
  unfold insert2 at he
  rcases mem_upsert m rn _ e he with hm | rfl
  · exact hz e hm e2 he2
  · rcases mem_upsert ((alookup m rn).getD []) pn 0 e2 he2 with hm2 | rfl
    · cases hd : alookup m rn with
      | none => rw [hd] at hm2; cases hm2
      | some inner =>
        rw [hd] at hm2
        exact hz (rn, inner) (alookup_mem m rn inner hd) e2 hm2
    · rfl

/-- With duplicate-free keys, looking a member up yields its own value. -/
theorem alookup_nodup {α : Type} :
    ∀ (l : List (String × α)), (l.map Prod.fst).Nodup →
      ∀ gp ∈ l, alookup l gp.1 = some gp.2 := by
  intro l
  induction l with
  | nil => intro _ gp hgp; cases hgp
  | cons h0 t ih =>
    intro hnd gp hgp
    rw [List.map_cons] at hnd
    rcases List.nodup_cons.mp hnd with ⟨hnot, hnd2⟩
    unfold alookup
    rcases List.mem_cons.mp hgp with rfl | hgp2
    · rw [if_pos rfl]
    · rw [if_neg ?_]
      · exact ih hnd2 gp hgp2
      · intro he
        exact hnot (by rw [he]; exact List.mem_map_of_mem Prod.fst hgp2)

/-- With duplicate-free pass names, `get_pass` finds each pass itself. -/
theorem get_pass_self :
    ∀ (passes : List Pass), (passes.map Pass.name).Nodup →
      ∀ q ∈ passes, passes.find? (fun p => p.name = q.name) = some q := by
  intro passes
  induction passes with
  | nil => intro _ q hq; cases hq
  | cons h0 t ih =>
    intro hnd q hq
    rw [List.map_cons] at hnd
    rcases List.nodup_cons.mp hnd with ⟨hnot, hnd2⟩
    rcases List.mem_cons.mp hq with rfl | hq2
    · rw [List.find?_cons_of_pos _ (by simp)]
    · rw [List.find?_cons_of_neg _ ?_]
      · exact ih hnd2 q hq2
      · simp only [decide_eq_true_eq]
        intro he
        exact hnot (by rw [he]; exact List.mem_map_of_mem Pass.name hq2)

/-- A patch fit for self-comparison: exactly one run, whose pass names
are duplicate-free. -/
def PatchSelfOK (p : Patch) : Prop :=
  p.runs.length = 1 ∧ ∀ r ∈ p.runs, (r.passes.map Pass.name).Nodup

instance (p : Patch) : Decidable (PatchSelfOK p) := by
  unfold PatchSelfOK; infer_instance

/-- Comparing a duplicate-free run against itself inserts only zeros. -/
theorem comparePasses_self_zero (r : Run)
    (hnd : (r.passes.map Pass.name).Nodup) :
    ∀ m, AllZero m → AllZero (comparePasses r r m) := by
  intro m hm
  unfold comparePasses
  refine foldl_preserve AllZero _ r.passes ?_ m hm
  intro m2 x hx hz
  have hfind : Run.get_pass r x.name = some x := by
    unfold Run.get_pass
    exact get_pass_self r.passes hnd x hx
  have hd : deltaOf r x = 0 := by
    unfold deltaOf
    rw [hfind]
    show x.time - x.time = 0
    exact sub_self _
  show AllZero (insert2 m2 r.name x.name (deltaOf r x))
  rw [hd]
  exact allZero_insert2_zero m2 r.name x.name hz

/-- A self-paired patch compares successfully and inserts only zeros. -/
theorem comparePatches_self_zero (p : Patch) (hp : PatchSelfOK p) :
    ∀ m, AllZero m →
      ∃ m2, comparePatches m (p, p) = some m2 ∧ AllZero m2 := by
  intro m hm
  rcases List.length_eq_one.mp hp.1 with ⟨r, hr⟩
  have hrun : p.run = some r := by rw [Patch.run, hr]
  refine ⟨comparePasses r r m, ?_, ?_⟩
  · unfold comparePatches
    rw [hrun]
    show (if r.name = r.name then some (comparePasses r r m) else none) = _
    rw [if_pos rfl]
  · exact comparePasses_self_zero r (hp.2 r (hr ▸ List.mem_singleton.mpr rfl)) m hm

/-- Folding self-paired patches preserves success and all-zero deltas. -/
theorem zipSelf_fold_zero :
    ∀ (ps : List Patch), (∀ p ∈ ps, PatchSelfOK p) →
      ∀ m, AllZero m →
        ∃ m2, (ps.zip ps).foldlM comparePatches m = some m2 ∧ AllZero m2 := by
  intro ps
  induction ps with
  | nil => intro _ m hm; exact ⟨m, rfl, hm⟩
  | cons p t ih =>
    intro hok m hm
    rcases comparePatches_self_zero p (hok p (List.mem_cons_self _ _)) m hm with
      ⟨m1, hm1, hz1⟩
    rcases ih (fun q hq => hok q (List.mem_cons_of_mem _ hq)) m1 hz1 with
      ⟨m2, hm2, hz2⟩
    refine ⟨m2, ?_, hz2⟩
    rw [List.zip_cons_cons, List.foldlM_cons, hm1]
    exact hm2

/-- Folding the benchmark groups of a self-comparison preserves success
and all-zero deltas. -/
theorem groups_fold_self_zero (c : CommitData) :
    ∀ l : List (String × List Patch),
      (∀ gp ∈ l, alookup c.benchmarks gp.1 = some gp.2 ∧ ∀ p ∈ gp.2, PatchSelfOK p) →
      ∀ m, AllZero m →
        ∃ m2, l.foldlM (compareGroup c) m = some m2 ∧ AllZero m2 := by
  intro l
  induction l with
  | nil => intro _ m hm; exact ⟨m, rfl, hm⟩
  | cons gp t ih =>
    intro hok m hm
    rcases hok gp (List.mem_cons_self _ _) with ⟨hl, hps⟩
    rcases zipSelf_fold_zero gp.2 hps m hm with ⟨m1, hm1, hz1⟩
    rcases ih (fun q hq => hok q (List.mem_cons_of_mem _ hq)) m1 hz1 with
      ⟨m2, hm2, hz2⟩
    refine ⟨m2, ?_, hz2⟩
    rw [List.foldlM_cons]
    have hg : compareGroup c m gp = some m1 := by
      unfold compareGroup
      rw [hl]
      show (if gp.2.length = gp.2.length then (gp.2.zip gp.2).foldlM comparePatches m
        else none) = some m1
      rw [if_pos rfl]
      exact hm1
    rw [hg]
    exact hm2

/-- C4 (amended): a well-formed record — every patch holding exactly one
run, pass names duplicate-free inside each run (and benchmark-group
names duplicate-free, as a `HashMap` guarantees) — compared against
itself succeeds with every recorded delta exactly zero. -/
theorem self_compare_all_deltas_zero :
    ∀ c : CommitData,
      (c.benchmarks.map Prod.fst).Nodup →
      (∀ gp ∈ c.benchmarks, ∀ p ∈ gp.2, PatchSelfOK p) →
      ∃ cmp, compare_points c c = some cmp ∧
        ∀ e ∈ cmp.by_crate, ∀ e2 ∈ e.2, e2.2 = 0 := by
  intro c hnd hok
  have hz0 : AllZero [] := by intro e he; cases he
  rcases groups_fold_self_zero c c.benchmarks
      (fun gp hgp => ⟨alookup_nodup c.benchmarks hnd gp hgp, hok gp hgp⟩)
      [] hz0 with ⟨m2, hm2, hz2⟩
  refine ⟨{ a := c.commit, b := c.commit, by_crate := m2 }, ?_, hz2⟩
  unfold compare_points
  rw [hm2]
  rfl

/-- Witness for C4 (amended) at the one-record fixture. -/
theorem self_compare_all_deltas_zero_witness :
    ∃ cmp, compare_points exDataOne exDataOne = some cmp ∧
      ∀ e ∈ cmp.by_crate, ∀ e2 ∈ e.2, e2.2 = 0 :=
  self_compare_all_deltas_zero exDataOne (by decide) (by decide)

/-! ### C2 — a pass absent from `b` yields delta `0.0 - a_time` -/

/-- The invariant tracked through a comparison for one `by_crate` key:
the key is still unwritten, or it already holds the expected value. -/
def KeyInv (rn pn : String) (v0 : Rat) (m : ByCrate) : Prop :=
  lookup2 m rn pn = none ∨ lookup2 m rn pn = some v0

/-- Every write a run pair can make to key `(rn, pn)` has value `v0`. -/
def WritesOK (rn pn : String) (v0 : Rat) (ar br : Run) : Prop :=
  ∀ q ∈ ar.passes, ar.name = rn → q.name = pn → deltaOf br q = v0

/-- One comparison stage preserves the key invariant and never erases
the key. -/
def Keeps (rn pn : String) (v0 : Rat) (m m2 : ByCrate) : Prop :=
  (KeyInv rn pn v0 m → KeyInv rn pn v0 m2) ∧
  ((lookup2 m rn pn).isSome = true → (lookup2 m2 rn pn).isSome = true)

/-- A key that is both constrained by the invariant and present holds
the expected value. -/
theorem keyInv_some (rn pn : String) (v0 : Rat) (m : ByCrate)
    (hinv : KeyInv rn pn v0 m) (hs : (lookup2 m rn pn).isSome = true) :
    lookup2 m rn pn = some v0 := by
  rcases hinv with h | h
  · rw [h] at hs; cases hs
  · exact h

/-- The pass loop keeps the key invariant when all its writes to the key
carry `v0`, and never erases the key. -/
theorem comparePasses_keeps (rn pn : String) (v0 : Rat) (ar br : Run)
    (hW : WritesOK rn pn v0 ar br) (m : ByCrate) :
    Keeps rn pn v0 m (comparePasses ar br m) := by
  constructor
  · intro hinv
    unfold comparePasses
    refine foldl_preserve (KeyInv rn pn v0) _ ar.passes ?_ m hinv
    intro m2 x hx hi
    by_cases hk : ar.name = rn ∧ x.name = pn
    · right
      show lookup2 (insert2 m2 ar.name x.name (deltaOf br x)) rn pn = some v0
      rw [hk.1, hk.2, lookup2_insert2_self, hW x hx hk.1 hk.2]
    · show KeyInv rn pn v0 (insert2 m2 ar.name x.name (deltaOf br x))
      unfold KeyInv
      rw [lookup2_insert2_ne m2 rn pn ar.name x.name _ (not_and_or.mp hk)]
      exact hi
  · intro hs
    unfold comparePasses
    refine foldl_preserve (fun m2 => (lookup2 m2 rn pn).isSome = true) _ ar.passes ?_ m hs
    intro m2 x _ hi
    exact lookup2_insert2_isSome m2 rn pn ar.name x.name _ hi

/-- A successful patch-pair stage keeps the key invariant when every run
pair it can produce writes only `v0` to the key. -/
theorem comparePatches_keeps (rn pn : String) (v0 : Rat) (pr : Patch × Patch)
    (m m2 : ByCrate) (h : comparePatches m pr = some m2)
    (hW : ∀ ar br, pr.1.run = some ar → pr.2.run = some br →
      WritesOK rn pn v0 ar br) :
    Keeps rn pn v0 m m2 := by
  unfold comparePatches at h
  cases har : pr.1.run with
  | none => rw [har] at h; exact Option.noConfusion h
  | some ar =>
    cases hbr : pr.2.run with
    | none => rw [har, hbr] at h; exact Option.noConfusion h
    | some br =>
      rw [har, hbr] at h
      have h2 : (if ar.name = br.name then some (comparePasses ar br m) else none)
          = some m2 := h
      split_ifs at h2 with hn
      cases h2
      exact comparePasses_keeps rn pn v0 ar br (hW ar br har hbr) m

/-- A successful fold of patch pairs keeps the key invariant when all
its pairs write only `v0` to the key. -/
theorem zipfold_keeps (rn pn : String) (v0 : Rat) :
    ∀ (z : List (Patch × Patch)) (m m2 : ByCrate),
      z.foldlM comparePatches m = some m2 →
      (∀ pr ∈ z, ∀ ar br, pr.1.run = some ar → pr.2.run = some br →
        WritesOK rn pn v0 ar br) →
      Keeps rn pn v0 m m2 := by
  intro z
  induction z with
  | nil =>
    intro m m2 h _
    cases h
    exact ⟨id, id⟩
  | cons pr t ih =>
    intro m m2 h hall
    rw [List.foldlM_cons] at h
    cases hstep : comparePatches m pr with
    | none => rw [hstep] at h; exact Option.noConfusion h
    | some m1 =>
      rw [hstep] at h
      have h2 : t.foldlM comparePatches m1 = some m2 := h
      have k1 := comparePatches_keeps rn pn v0 pr m m1 hstep
        (hall pr (List.mem_cons_self _ _))
      have k2 := ih m1 m2 h2 (fun q hq => hall q (List.mem_cons_of_mem _ hq))
      exact ⟨fun hi => k2.1 (k1.1 hi), fun hs => k2.2 (k1.2 hs)⟩

/-- A successful group stage keeps the key invariant when all the run
pairs it processes write only `v0` to the key. -/
theorem compareGroup_keeps (rn pn : String) (v0 : Rat) (b : CommitData)
    (gp : String × List Patch) (m m2 : ByCrate)
    (h : compareGroup b m gp = some m2)
    (hW : ∀ bps2, alookup b.benchmarks gp.1 = some bps2 →
      ∀ pr ∈ gp.2.zip bps2, ∀ ar br, pr.1.run = some ar → pr.2.run = some br →
        WritesOK rn pn v0 ar br) :
    Keeps rn pn v0 m m2 := by
  unfold compareGroup at h
  cases hlook : alookup b.benchmarks gp.1 with
  | none =>
    rw [hlook] at h
    cases h
    exact ⟨id, id⟩
  | some bps2 =>
    rw [hlook] at h
    have h2 : (if gp.2.length = bps2.length then (gp.2.zip bps2).foldlM comparePatches m
        else none) = some m2 := h
    split_ifs at h2 with hlen
    exact zipfold_keeps rn pn v0 (gp.2.zip bps2) m m2 h2 (hW bps2 hlook)

/-- A successful fold of groups keeps the key invariant when all the run
pairs of all its groups write only `v0` to the key. -/
theorem groupsfold_keeps (rn pn : String) (v0 : Rat) (b : CommitData) :
    ∀ (l : List (String × List Patch)) (m m2 : ByCrate),
      l.foldlM (compareGroup b) m = some m2 →
      (∀ gp ∈ l, ∀ bps2, alookup b.benchmarks gp.1 = some bps2 →
        ∀ pr ∈ gp.2.zip bps2, ∀ ar br, pr.1.run = some ar → pr.2.run = some br →
          WritesOK rn pn v0 ar br) →
      Keeps rn pn v0 m m2 := by
  intro l
  induction l with
  | nil =>
    intro m m2 h _
    cases h
    exact ⟨id, id⟩
  | cons gp t ih =>
    intro m m2 h hall
    rw [List.foldlM_cons] at h
    cases hstep : compareGroup b m gp with
    | none => rw [hstep] at h; exact Option.noConfusion h
    | some m1 =>
      rw [hstep] at h
      have h2 : t.foldlM (compareGroup b) m1 = some m2 := h
      have k1 := compareGroup_keeps rn pn v0 b gp m m1 hstep
        (hall gp (List.mem_cons_self _ _))
      have k2 := ih m1 m2 h2 (fun q hq => hall q (List.mem_cons_of_mem _ hq))
      exact ⟨fun hi => k2.1 (k1.1 hi), fun hs => k2.2 (k1.2 hs)⟩

/-- Splitting a successful `Option` fold over an append. -/
theorem foldlM_append_some {α β : Type} (f : β → α → Option β) :
    ∀ (l1 l2 : List α) (m m2 : β),
      (l1 ++ l2).foldlM f m = some m2 →
      ∃ mid, l1.foldlM f m = some mid ∧ l2.foldlM f mid = some m2 := by
  intro l1
  induction l1 with
  | nil => intro l2 m m2 h; exact ⟨m, rfl, h⟩
  | cons a t ih =>
    intro l2 m m2 h
    rw [List.cons_append, List.foldlM_cons] at h
    cases hf : f m a with
    | none => rw [hf] at h; exact Option.noConfusion h
    | some m1 =>
      rw [hf] at h
      have h2 : (t ++ l2).foldlM f m1 = some m2 := h
      rcases ih l2 m1 m2 h2 with ⟨mid, hm1, hm2⟩
      refine ⟨mid, ?_, hm2⟩
      rw [List.foldlM_cons, hf]
      exact hm1

/-- After the pass loop runs over a run containing `p` (whose writes to
its own key all carry `v0`), the key holds `v0`. -/
theorem comparePasses_write (v0 : Rat) (ar br : Run) (p : Pass)
    (hW : WritesOK ar.name p.name v0 ar br) (hp : p ∈ ar.passes) :
    ∀ m : ByCrate, lookup2 (comparePasses ar br m) ar.name p.name = some v0 := by
  intro m
  rcases List.append_of_mem hp with ⟨q1, q2, hsplit⟩
  unfold comparePasses
  rw [hsplit, List.foldl_append, List.foldl_cons]
  refine foldl_preserve (fun m2 => lookup2 m2 ar.name p.name = some v0) _ q2 ?_ _ ?_
  · intro m2 x hx hcur
    by_cases hn : x.name = p.name
    · show lookup2 (insert2 m2 ar.name x.name (deltaOf br x)) ar.name p.name = some v0
      rw [hn, lookup2_insert2_self,
        hW x (by rw [hsplit]; exact List.mem_append_right _ (List.mem_cons_of_mem _ hx))
          rfl hn]
    · show lookup2 (insert2 m2 ar.name x.name (deltaOf br x)) ar.name p.name = some v0
      rw [lookup2_insert2_ne m2 ar.name p.name ar.name x.name _ (Or.inr hn)]
      exact hcur
  · show lookup2 (insert2 _ ar.name p.name (deltaOf br p)) ar.name p.name = some v0
    rw [lookup2_insert2_self, hW p hp rfl rfl]

/-- After a successful patch-pair stage whose `a` run contains `p`, the
key of `p` holds `v0`. -/
theorem comparePatches_write (v0 : Rat) (pr : Patch × Patch) (m m2 : ByCrate)
    (ar br : Run) (p : Pass) (h : comparePatches m pr = some m2)
    (har : pr.1.run = some ar) (hbr : pr.2.run = some br)
    (hW : WritesOK ar.name p.name v0 ar br) (hp : p ∈ ar.passes) :
    lookup2 m2 ar.name p.name = some v0 := by
  unfold comparePatches at h
  rw [har, hbr] at h
  have h2 : (if ar.name = br.name then some (comparePasses ar br m) else none)
      = some m2 := h
  split_ifs at h2 with hn
  cases h2
  exact comparePasses_write v0 ar br p hW hp m

/-- After a successful fold containing the pair of `p` — all pairs
writing only `v0` to the key of `p` — the key holds `v0`. -/
theorem zipfold_write (v0 : Rat) (ar br : Run) (p : Pass) (hp : p ∈ ar.passes)
    (hW : WritesOK ar.name p.name v0 ar br) :
    ∀ (z : List (Patch × Patch)) (m m2 : ByCrate),
      z.foldlM comparePatches m = some m2 →
      (∀ pr ∈ z, ∀ ar2 br2, pr.1.run = some ar2 → pr.2.run = some br2 →
        WritesOK ar.name p.name v0 ar2 br2) →
      ∀ pr0 ∈ z, pr0.1.run = some ar → pr0.2.run = some br →
        lookup2 m2 ar.name p.name = some v0 := by
  intro z m m2 h hall pr0 hpr0 har hbr
  rcases List.append_of_mem hpr0 with ⟨z1, z2, hsplit⟩
  rw [hsplit] at h
  rcases foldlM_append_some comparePatches z1 (pr0 :: z2) m m2 h with ⟨mA, _, hrest⟩
  rw [List.foldlM_cons] at hrest
  cases hstep : comparePatches mA pr0 with
  | none => rw [hstep] at hrest; exact Option.noConfusion hrest
  | some mB =>
    rw [hstep] at hrest
    have h2 : z2.foldlM comparePatches mB = some m2 := hrest
    have hwrite := comparePatches_write v0 pr0 mA mB ar br p hstep har hbr hW hp
    have hk := zipfold_keeps ar.name p.name v0 z2 mB m2 h2
      (fun q hq => hall q
        (by rw [hsplit]; exact List.mem_append_right _ (List.mem_cons_of_mem _ hq)))
    exact keyInv_some _ _ _ _ (hk.1 (Or.inr hwrite)) (hk.2 (by rw [hwrite]; rfl))

/-- After a successful group fold containing the group and pair of `p`,
with every processed run pair writing only `v0` to its key, the key
holds `v0`. -/
theorem groupsfold_write (v0 : Rat) (b : CommitData) (ar br : Run) (p : Pass)
    (hp : p ∈ ar.passes) (hW : WritesOK ar.name p.name v0 ar br) :
    ∀ (l : List (String × List Patch)) (m m2 : ByCrate),
      l.foldlM (compareGroup b) m = some m2 →
      (∀ gp ∈ l, ∀ bps2, alookup b.benchmarks gp.1 = some bps2 →
        ∀ pr ∈ gp.2.zip bps2, ∀ ar2 br2, pr.1.run = some ar2 → pr.2.run = some br2 →
          WritesOK ar.name p.name v0 ar2 br2) →
      ∀ gp0 ∈ l, ∀ bps, alookup b.benchmarks gp0.1 = some bps →
        ∀ pr0 ∈ gp0.2.zip bps, pr0.1.run = some ar → pr0.2.run = some br →
          lookup2 m2 ar.name p.name = some v0 := by
  intro l m m2 h hall gp0 hgp0 bps hlook pr0 hpr0 har hbr
  rcases List.append_of_mem hgp0 with ⟨l1, l2, hsplit⟩
  rw [hsplit] at h
  rcases foldlM_append_some (compareGroup b) l1 (gp0 :: l2) m m2 h with ⟨mA, _, hrest⟩
  rw [List.foldlM_cons] at hrest
  cases hstep : compareGroup b mA gp0 with
  | none => rw [hstep] at hrest; exact Option.noConfusion hrest
  | some mB =>
    rw [hstep] at hrest
    have h2 : l2.foldlM (compareGroup b) mB = some m2 := hrest
    have hwrite : lookup2 mB ar.name p.name = some v0 := by
      unfold compareGroup at hstep
      rw [hlook] at hstep
      have h3 : (if gp0.2.length = bps.length then
          (gp0.2.zip bps).foldlM comparePatches mA else none) = some mB := hstep
      split_ifs at h3 with hlen
      exact zipfold_write v0 ar br p hp hW (gp0.2.zip bps) mA mB h3
        (hall gp0
          (by rw [hsplit]; exact List.mem_append_right _ (List.mem_cons_self _ _))
          bps hlook)
        pr0 hpr0 har hbr
    have hk := groupsfold_keeps ar.name p.name v0 b l2 mB m2 h2
      (fun q hq => hall q
        (by rw [hsplit]; exact List.mem_append_right _ (List.mem_cons_of_mem _ hq)))
    exact keyInv_some _ _ _ _ (hk.1 (Or.inr hwrite)) (hk.2 (by rw [hwrite]; rfl))

/-- Two members of a duplicate-free-keyed association list with the same
key are the same entry. -/
theorem nodup_keys_mem_eq {α : Type} {l : List (String × α)}
    (h : (l.map Prod.fst).Nodup) {x y : String × α}
    (hx : x ∈ l) (hy : y ∈ l) (he : x.1 = y.1) : x = y := by
  have h1 := alookup_nodup l h x hx
  have h2 := alookup_nodup l h y hy
  rw [he, h2] at h1
  injection h1 with h3
  exact Prod.ext he h3.symm

/-- C2 (amended): if pass `p` of the run for patch `i` of group `g` in
`a` is absent (by name) from the corresponding run of `b`, then — as
long as the comparison succeeds, every same-named pass of that run has
the same time, and no other patch position in `a` yields a run of the
same name (so the `[run name][pass name]` cell is not overwritten) — the
produced comparison records `0.0 - a_time` for that cell. -/
theorem missing_pass_records_negated_time :
    ∀ (a b : CommitData) (cmp : Comparison) (g : String) (aps bps : List Patch)
      (i : Nat) (ar br : Run) (p : Pass),
      compare_points a b = some cmp →
      (a.benchmarks.map Prod.fst).Nodup →
      (g, aps) ∈ a.benchmarks →
      alookup b.benchmarks g = some bps →
      ∀ (hia : i < aps.length) (hib : i < bps.length),
        (aps.get ⟨i, hia⟩).run = some ar →
        (bps.get ⟨i, hib⟩).run = some br →
        p ∈ ar.passes →
        br.get_pass p.name = none →
        (∀ q ∈ ar.passes, q.name = p.name → q.time = p.time) →
        (∀ gp2 ∈ a.benchmarks, ∀ (j : Nat) (hj : j < gp2.2.length),
          (gp2.2.get ⟨j, hj⟩).run.map Run.name = some ar.name → gp2.1 = g ∧ j = i) →
        lookup2 cmp.by_crate ar.name p.name = some (0 - p.time) := by
  intro a b cmp g aps bps i ar br p hcp hnd hga hlook hia hib har hbr hp habs hU1 hU2
  have hWself : WritesOK ar.name p.name (0 - p.time) ar br := by
    intro q hq _ hqn
    unfold deltaOf
    rw [hqn, habs]
    show (0 : Rat) - q.time = 0 - p.time
    rw [hU1 q hq hqn]
  have hall : ∀ gp2 ∈ a.benchmarks, ∀ bps2, alookup b.benchmarks gp2.1 = some bps2 →
      ∀ pr ∈ gp2.2.zip bps2, ∀ ar2 br2, pr.1.run = some ar2 → pr.2.run = some br2 →
        WritesOK ar.name p.name (0 - p.time) ar2 br2 := by
    intro gp2 hgp2 bps2 hlook2 pr hpr ar2 br2 har2 hbr2 q hq hn1 hn2
    rcases List.getElem_of_mem hpr with ⟨j, hj, hje⟩
    have hjlen : j < gp2.2.length := by
      have hj2 := hj
      rw [List.length_zip gp2.2 bps2] at hj2
      exact lt_of_lt_of_le hj2 (min_le_left _ _)
    have hjlen2 : j < bps2.length := by
      have hj2 := hj
      rw [List.length_zip gp2.2 bps2] at hj2
      exact lt_of_lt_of_le hj2 (min_le_right _ _)
    have hz : pr = (gp2.2.get ⟨j, hjlen⟩, bps2.get ⟨j, hjlen2⟩) := by
      rw [← hje, List.get_eq_getElem, List.get_eq_getElem]
      exact List.getElem_zip
    subst hz
    have harA : (gp2.2.get ⟨j, hjlen⟩).run = some ar2 := har2
    have hbrB : (bps2.get ⟨j, hjlen2⟩).run = some br2 := hbr2
    have hmap : (gp2.2.get ⟨j, hjlen⟩).run.map Run.name = some ar.name := by
      rw [harA]
      show some ar2.name = some ar.name
      rw [hn1]
    rcases hU2 gp2 hgp2 j hjlen hmap with ⟨hg2, hj2⟩
    have hgp_eq : gp2 = (g, aps) := nodup_keys_mem_eq hnd hgp2 hga hg2
    subst hj2
    subst hgp_eq
    rw [hg2] at hlook2
    rw [hlook] at hlook2
    cases hlook2
    have harA2 : (aps.get ⟨j, hia⟩).run = some ar2 := harA
    rw [har] at harA2
    injection harA2 with he2
    subst he2
    have hbrB2 : (bps.get ⟨j, hib⟩).run = some br2 := hbrB
    rw [hbr] at hbrB2
    injection hbrB2 with he3
    subst he3
    exact hWself q hq rfl hn2
  unfold compare_points at hcp
  cases hfold : a.benchmarks.foldlM (compareGroup b) [] with
  | none => rw [hfold] at hcp; exact Option.noConfusion hcp
  | some mf =>
    rw [hfold] at hcp
    have hcp2 : some ({ a := a.commit, b := b.commit, by_crate := mf } : Comparison)
        = some cmp := hcp
    cases hcp2
    have hzlen : i < (aps.zip bps).length := by
      rw [List.length_zip aps bps]; exact lt_min hia hib
    have hmem : (aps.get ⟨i, hia⟩, bps.get ⟨i, hib⟩) ∈ aps.zip bps := by
      have hm := List.getElem_mem hzlen
      rw [List.getElem_zip] at hm
      rw [List.get_eq_getElem, List.get_eq_getElem]
      exact hm
    exact groupsfold_write (0 - p.time) b ar br p hp hWself a.benchmarks [] mf hfold hall
      (g, aps) hga bps hlook (aps.get ⟨i, hia⟩, bps.get ⟨i, hib⟩) hmem har hbr

/-- A successful concrete comparison: `a` has pass `x` (time 5), `b`
lacks it. -/
def exCmpX5Y : Comparison := (compare_points exDataX5 exDataY).get (by decide)

/-- Witness for C2 (amended): the missing pass `x` (time 5) is recorded
as `0 - 5`. -/
theorem missing_pass_records_negated_time_witness :
    lookup2 exCmpX5Y.by_crate "r" "x" = some (0 - 5) :=
  missing_pass_records_negated_time exDataX5 exDataY exCmpX5Y "g" [exPatchX5] [exPatchY]
    0 exRunX5 exRunY { name := "x", time := 5, mem := 0 }
    (Option.some_get _).symm (by decide) (by decide) (by decide)
    (by decide) (by decide) (by decide) (by decide) (by decide) (by decide)
    (by decide) (by decide)

/-- Counterexample for C2 as stated: `a` holds two passes named `x`
(times 5 and 7), both absent from `b`.  For the first of them the claim
asserts a recorded delta of `0 - 5`, but the later write wins and the
comparison records `0 - 7`. -/
theorem missing_pass_overwritten_delta :
    (({ name := "x", time := 5, mem := 0 } : Pass) ∈ exRunDup.passes) ∧
    (exRunY.get_pass "x" = none) ∧
    (compare_points exDataDup exDataY).map (fun c2 => lookup2 c2.by_crate "r" "x")
      = some (some (0 - 7)) ∧
    ((0 - 7 : Rat) ≠ 0 - 5) :=
  ⟨by decide, by decide, rfl, by norm_num⟩

/-- Counterexample for C4 as stated: a record whose single run holds two
passes both named `x` (times 5 and 7) — each patch still holds exactly
one run, so the record is well-formed in the sense of the claim — yields
a self-comparison whose recorded delta for `x` is `-2`, not `0`:
`get_pass` finds the first `x` (time 5) while the loop visits the second
(time 7), and the later insert wins. -/
theorem self_compare_nonzero_for_duplicate_names :
    (exDataDup.benchmarks.all (fun gp => gp.2.all (fun p => p.runs.length == 1))) = true ∧
    (compare_points exDataDup exDataDup).map
      (fun cmp => lookup2 cmp.by_crate "r" "x") = some (some (5 - 7)) ∧
    ((5 - 7 : Rat) ≠ 0) :=
  ⟨by decide, rfl, by norm_num⟩

end RustcPerf
